import Mathlib

/-!
Shallow embedding of the gonfig configuration library's merge-and-resolution
core: the `Environment` source (src/environment.rs) and the prefix-composition
and nested-resolution algorithm generated by the derive macro
(gonfig_derive/src/lib.rs).  Strings are modelled as Lean `String`
(lists of characters); Rust byte indexing coincides with character indexing
on the ASCII data the library manipulates.  Rust `to_uppercase` and
`to_lowercase` are modelled by ASCII case mapping (`Char.toUpper` and
`Char.toLower`), which agree with Rust on ASCII input.
-/

namespace Gonfig

/-- ASCII uppercase of a string, modelling Rust `str::to_uppercase` on ASCII data. -/
def strToUpper (s : String) : String :=
  String.mk (s.data.map Char.toUpper)

/-- ASCII lowercase of a string, modelling Rust `str::to_lowercase` on ASCII data. -/
def strToLower (s : String) : String :=
  String.mk (s.data.map Char.toLower)

/-- Length in characters (equals Rust byte length on ASCII data). -/
def strLen (s : String) : Nat :=
  s.data.length

/-- Drop the first `n` characters, modelling the Rust slice `s[n..]` on ASCII data. -/
def strDrop (s : String) (n : Nat) : String :=
  String.mk (s.data.drop n)

/-- Rust `str::starts_with` with a string pattern. -/
def strStartsWith (s p : String) : Bool :=
  p.data.isPrefixOf s.data

/-- Worker for `trimStartMatches` on character lists, with fuel for
structural recursion (each step removes at least one character, so length
plus one is always enough).  Repeatedly removes the pattern from the front,
exactly like Rust `str::trim_start_matches` (which removes the matching
pattern repeatedly, not just once). -/
def trimStartListAux : Nat → List Char → List Char → List Char
  | 0, _, s => s
  | fuel + 1, sep, s =>
    if sep ≠ [] ∧ sep <+: s then trimStartListAux fuel sep (s.drop sep.length)
    else s

/-- Repeated removal of the pattern from the front of the list. -/
def trimStartList (sep : List Char) (s : List Char) : List Char :=
  trimStartListAux (s.length + 1) sep s

/-- Rust `str::trim_start_matches` with a string pattern. -/
def trimStartMatches (s pat : String) : String :=
  String.mk (trimStartList pat.data s.data)

/-- Worker for `splitOnSep` with fuel for structural recursion: scan left to
right, cutting at each occurrence of the (non-empty) separator, like Rust
`str::split` with a string pattern.  `acc` holds the current chunk
reversed. -/
def splitListAux : Nat → List Char → List Char → List Char → List (List Char)
  | 0, _, _, acc => [acc.reverse]
  | fuel + 1, sep, s, acc =>
    match s with
    | [] => [acc.reverse]
    | c :: rest =>
      if sep ≠ [] ∧ sep <+: (c :: rest) then
        acc.reverse :: splitListAux fuel sep ((c :: rest).drop sep.length) []
      else
        splitListAux fuel sep rest (c :: acc)

/-- Rust `str::split` with a string pattern, for a non-empty separator (the
library's separators are non-empty; the empty-separator case of Rust `split`
is not exercised and is modelled as no split). -/
def splitOnSep (s sep : String) : List String :=
  if sep.data = [] then [s]
  else (splitListAux (s.data.length + 1) sep.data s.data []).map String.mk

/-- Join string parts with a separator, modelling `Vec::join`. -/
def joinSep (parts : List String) (sep : String) : String :=
  match parts with
  | [] => String.mk []
  | [x] => x
  | x :: rest => x ++ sep ++ joinSep rest sep

/-- The JSON value tree (`serde_json::Value`).  `serde_json` distinguishes
integer numbers (i64/u64) from floating numbers (f64); floating numbers are
modelled by their exact decimal value as a rational (IEEE rounding is not
modelled; no property below depends on the magnitude of a float). -/
inductive Value where
  | null
  | bool (b : Bool)
  | intNum (n : Int)
  | floatNum (q : ℚ)
  | str (s : String)
  | arr (elems : List Value)
  | obj (entries : List (String × Value))

/-- Lookup in an association list modelling a `serde_json::Map` / `HashMap`
(keys are kept unique by `insertKV`). -/
def lookupKV (m : List (String × Value)) (k : String) : Option Value :=
  match m with
  | [] => none
  | (k2, v) :: rest => if k2 = k then some v else lookupKV rest k

/-- Key membership in the association map. -/
def containsKey (m : List (String × Value)) (k : String) : Bool :=
  match m with
  | [] => false
  | (k2, _) :: rest => k2 = k || containsKey rest k

/-- Map insert: replaces the value of an existing key in place, otherwise
appends the new entry, modelling `Map::insert` / `HashMap::insert`. -/
def insertKV (m : List (String × Value)) (k : String) (v : Value) :
    List (String × Value) :=
  match m with
  | [] => [(k, v)]
  | (k2, w) :: rest => if k2 = k then (k2, v) :: rest else (k2, w) :: insertKV rest k v

/-- Remove a set of keys from the map, modelling the macro's sequence of
`map.remove(name)` calls for the nested field names. -/
def removeKeys (m : List (String × Value)) (ks : List String) :
    List (String × Value) :=
  m.filter (fun kv => !(ks.contains kv.1))

/-- The keys of the map hold no duplicates (invariant kept by `insertKV`,
mirroring a Rust map's unique keys). -/
def keysNodup (m : List (String × Value)) : Prop :=
  (m.map Prod.fst).Nodup

theorem lookupKV_insertKV_self (m : List (String × Value)) (k : String) (v : Value) :
    lookupKV (insertKV m k v) k = some v := by
  induction m with
  | nil => simp [insertKV, lookupKV]
  | cons kv rest ih =>
    obtain ⟨k2, w⟩ := kv
    by_cases h : k2 = k
    · simp [insertKV, lookupKV, h]
    · simp [insertKV, lookupKV, h, ih]

theorem lookupKV_insertKV_ne (m : List (String × Value)) (k1 k : String) (v : Value)
    (h : k1 ≠ k) : lookupKV (insertKV m k1 v) k = lookupKV m k := by
  induction m with
  | nil => simp [insertKV, lookupKV, h]
  | cons kv rest ih =>
    obtain ⟨k2, w⟩ := kv
    by_cases h2 : k2 = k1
    · subst h2
      simp [insertKV, lookupKV, h]
    · simp only [insertKV, if_neg h2]
      by_cases h3 : k2 = k
      · simp [lookupKV, h3]
      · simp [lookupKV, h3, ih]

theorem containsKey_true_iff (m : List (String × Value)) (k : String) :
    containsKey m k = true ↔ (lookupKV m k).isSome := by
  induction m with
  | nil => simp [containsKey, lookupKV]
  | cons kv rest ih =>
    obtain ⟨k2, w⟩ := kv
    by_cases h : k2 = k
    · simp [containsKey, lookupKV, h]
    · simp [containsKey, lookupKV, h, ih]

theorem lookupKV_removeKeys_mem (m : List (String × Value)) (ks : List String)
    (k : String) (h : k ∈ ks) : lookupKV (removeKeys m ks) k = none := by
  induction m with
  | nil => simp [removeKeys, lookupKV]
  | cons kv rest ih =>
    obtain ⟨k2, w⟩ := kv
    simp only [removeKeys, List.filter_cons] at ih ⊢
    by_cases h2 : k2 ∈ ks
    · simpa [h2] using ih
    · have hne : k2 ≠ k := fun he => h2 (he ▸ h)
      simpa [h2, lookupKV, hne] using ih

/-- Numeric value of a list of ASCII digits, most significant first. -/
def digitsVal (ds : List Char) : Nat :=
  ds.foldl (fun a c => a * 10 + (c.toNat - 48)) 0

/-- Rust `str::parse::<bool>`: accepts exactly the literals true and false. -/
def rustParseBool (s : String) : Option Bool :=
  if s = "true" then some true
  else if s = "false" then some false
  else none

/-- Rust `str::parse::<i64>`: optional sign, one or more ASCII digits, whole
string, value within the i64 range. -/
def rustParseI64 (s : String) : Option Int :=
  let p : Int × List Char :=
    match s.data with
    | '+' :: rest => (1, rest)
    | '-' :: rest => (-1, rest)
    | cs => (1, cs)
  let sgn := p.1
  let ds := p.2
  if ds = [] then none
  else if ds.all Char.isDigit then
    let v : Int := sgn * (digitsVal ds : Int)
    if -(2 ^ 63) ≤ v ∧ v < 2 ^ 63 then some v else none
  else none

/-- Outcome of Rust `str::parse::<f64>`: a finite value (kept as its exact
decimal rational; IEEE rounding-to-nearest is not modelled, and decimal
overflow to infinity is not modelled — no property depends on a parsed
float's magnitude) or a non-finite value (inf, infinity, nan). -/
inductive F64Result where
  | finite (q : ℚ)
  | nonfinite

/-- Take the leading ASCII digits of a character list. -/
def spanDigits (cs : List Char) : List Char × List Char :=
  match cs with
  | [] => ([], [])
  | c :: rest =>
    if c.isDigit then
      let r := spanDigits rest
      (c :: r.1, r.2)
    else ([], c :: rest)

/-- Exponent suffix of the Rust float grammar: e or E, optional sign, one or
more digits.  Returns the signed exponent. -/
def parseExpSuffix (cs : List Char) : Option Int :=
  match cs with
  | c :: rest =>
    if c = 'e' ∨ c = 'E' then
      let p : Int × List Char :=
        match rest with
        | '+' :: rr => (1, rr)
        | '-' :: rr => (-1, rr)
        | rr => (1, rr)
      if p.2 ≠ [] ∧ p.2.all Char.isDigit then
        some (p.1 * (digitsVal p.2 : Int))
      else none
    else none
  | [] => none

/-- Unsigned part of the Rust float grammar after the optional sign:
digits, digits point digits*, or point digits, with an optional exponent;
at least one digit is required overall. -/
def parseDecimal (cs : List Char) : Option ℚ :=
  let ip := spanDigits cs
  let afterInt := ip.2
  let fp : Option (List Char) × List Char :=
    match afterInt with
    | '.' :: rest =>
      let f := spanDigits rest
      (some f.1, f.2)
    | _ => (none, afterInt)
  if ip.1 = [] ∧ (fp.1 = none ∨ fp.1 = some []) then none
  else
    let fracDigits := fp.1.getD []
    let mant : ℚ := (digitsVal ip.1 : ℚ) + (digitsVal fracDigits : ℚ) / (10 : ℚ) ^ fracDigits.length
    match fp.2 with
    | [] => some mant
    | c :: rest =>
      match parseExpSuffix (c :: rest) with
      | some e => some (mant * (10 : ℚ) ^ e)
      | none => none

/-- Rust `str::parse::<f64>`: optional sign, then inf, infinity or nan
(ASCII case-insensitive) or a decimal number per `parseDecimal`. -/
def rustParseF64 (s : String) : Option F64Result :=
  let p : Int × List Char :=
    match s.data with
    | '+' :: rest => (1, rest)
    | '-' :: rest => (-1, rest)
    | cs => (1, cs)
  let low := p.2.map Char.toLower
  if low = "inf".data ∨ low = "infinity".data ∨ low = "nan".data then
    some F64Result.nonfinite
  else
    match parseDecimal p.2 with
    | some q => some (F64Result.finite ((p.1 : ℚ) * q))
    | none => none

/-- Rust `str::ends_with`. -/
def strEndsWith (s p : String) : Bool :=
  p.data.isSuffixOf s.data

/-- JSON whitespace. -/
def isJsonWs (c : Char) : Bool :=
  c = ' ' || c = '\t' || c = '\n' || c = '\r'

/-- Skip leading JSON whitespace. -/
def skipWs (cs : List Char) : List Char :=
  cs.dropWhile isJsonWs

/-- Value of one hexadecimal digit. -/
def hexVal (c : Char) : Option Nat :=
  if '0' ≤ c ∧ c ≤ '9' then some (c.toNat - 48)
  else if 'a' ≤ c ∧ c ≤ 'f' then some (c.toNat - 87)
  else if 'A' ≤ c ∧ c ≤ 'F' then some (c.toNat - 55)
  else none

/-- Four hexadecimal digits, as in a JSON \u escape. -/
def parseHex4 (cs : List Char) : Option (Nat × List Char) :=
  match cs with
  | a :: b :: c :: d :: rest =>
    match hexVal a, hexVal b, hexVal c, hexVal d with
    | some x, some y, some z, some w => some (((x * 16 + y) * 16 + z) * 16 + w, rest)
    | _, _, _, _ => none
  | _ => none

/-- Body of a JSON string literal after the opening quote (serde_json
semantics: escapes, surrogate pairs combined, lone surrogates and raw
control characters rejected).  `acc` holds the parsed characters reversed. -/
def jsonStringAux : Nat → List Char → List Char → Option (String × List Char)
  | 0, _, _ => none
  | fuel + 1, cs, acc =>
    match cs with
    | [] => none
    | c :: rest =>
      if c = '"' then some (String.mk acc.reverse, rest)
      else if c = '\\' then
        match rest with
        | [] => none
        | e :: r2 =>
          if e = '"' then jsonStringAux fuel r2 ( '"' :: acc)
          else if e = '\\' then jsonStringAux fuel r2 ( '\\' :: acc)
          else if e = '/' then jsonStringAux fuel r2 ( '/' :: acc)
          else if e = 'b' then jsonStringAux fuel r2 (Char.ofNat 8 :: acc)
          else if e = 'f' then jsonStringAux fuel r2 (Char.ofNat 12 :: acc)
          else if e = 'n' then jsonStringAux fuel r2 ( '\n' :: acc)
          else if e = 'r' then jsonStringAux fuel r2 ( '\r' :: acc)
          else if e = 't' then jsonStringAux fuel r2 ( '\t' :: acc)
          else if e = 'u' then
            match parseHex4 r2 with
            | none => none
            | some (n, r3) =>
              if 0xD800 ≤ n ∧ n ≤ 0xDBFF then
                match r3 with
                | '\\' :: 'u' :: r4 =>
                  match parseHex4 r4 with
                  | some (n2, r5) =>
                    if 0xDC00 ≤ n2 ∧ n2 ≤ 0xDFFF then
                      jsonStringAux fuel r5
                        (Char.ofNat (0x10000 + (n - 0xD800) * 0x400 + (n2 - 0xDC00)) :: acc)
                    else none
                  | none => none
                | _ => none
              else if 0xDC00 ≤ n ∧ n ≤ 0xDFFF then none
              else jsonStringAux fuel r3 (Char.ofNat n :: acc)
          else none
      else if c.toNat < 0x20 then none
      else jsonStringAux fuel rest (c :: acc)

/-- JSON string literal body with enough fuel for its length. -/
def jsonString (cs : List Char) : Option (String × List Char) :=
  jsonStringAux (cs.length + 1) cs []

/-- JSON exponent suffix: e or E, optional sign, one or more digits;
returns the signed exponent and the remainder. -/
def jsonExp (cs : List Char) : Option (Int × List Char) :=
  match cs with
  | c :: rest =>
    if c = 'e' ∨ c = 'E' then
      let p : Int × List Char :=
        match rest with
        | '+' :: rr => (1, rr)
        | '-' :: rr => (-1, rr)
        | rr => (1, rr)
      let d := spanDigits p.2
      if d.1 = [] then none
      else some (p.1 * (digitsVal d.1 : Int), d.2)
    else none
  | [] => none

/-- Build the `serde_json` number for a parsed JSON numeric literal: an
integer literal is stored as an integer when it fits i64/u64 (otherwise as a
float), and any literal with a fraction or exponent is stored as a float. -/
def jsonNumValue (neg : Bool) (ip : List Char) (fr : Option (List Char))
    (ex : Option Int) : Value :=
  match fr, ex with
  | none, none =>
    let mag : Int := (digitsVal ip : Int)
    let v : Int := if neg then -mag else mag
    if neg then
      if -(2 ^ 63) ≤ v then Value.intNum v else Value.floatNum (v : ℚ)
    else
      if v ≤ 2 ^ 64 - 1 then Value.intNum v else Value.floatNum (v : ℚ)
  | _, _ =>
    let f := fr.getD []
    let mant : ℚ := (digitsVal ip : ℚ) + (digitsVal f : ℚ) / (10 : ℚ) ^ f.length
    let q := mant * (10 : ℚ) ^ (ex.getD 0)
    Value.floatNum (if neg then -q else q)

/-- Fraction and exponent tail of a JSON numeric literal, given the integer
part already consumed. -/
def jsonNumTail (neg : Bool) (ip : List Char) (rest : List Char) :
    Option (Value × List Char) :=
  let fr : Option (List Char) × List Char :=
    match rest with
    | '.' :: r2 =>
      let f := spanDigits r2
      (some f.1, f.2)
    | _ => (none, rest)
  if fr.1 = some [] then none
  else
    match fr.2 with
    | c :: r3 =>
      if c = 'e' ∨ c = 'E' then
        match jsonExp (c :: r3) with
        | some (e, r4) => some (jsonNumValue neg ip fr.1 (some e), r4)
        | none => none
      else some (jsonNumValue neg ip fr.1 none, c :: r3)
    | [] => some (jsonNumValue neg ip fr.1 none, [])

/-- JSON numeric literal: optional minus, then 0 or a nonzero-led digit run
(no leading zeros), fraction, exponent. -/
def jsonNumber (cs : List Char) : Option (Value × List Char) :=
  let p : Bool × List Char :=
    match cs with
    | '-' :: r => (true, r)
    | _ => (false, cs)
  match p.2 with
  | [] => none
  | c :: r =>
    if c = '0' then jsonNumTail p.1 [c] r
    else if c.isDigit then
      let sp := spanDigits (c :: r)
      jsonNumTail p.1 sp.1 sp.2
    else none

mutual

/-- One JSON value with leading whitespace, serde_json grammar; fuel bounds
the recursion depth (each recursive call consumes at least one character, so
input length plus one is always enough fuel). -/
def jsonValue : Nat → List Char → Option (Value × List Char)
  | 0, _ => none
  | fuel + 1, cs =>
    match skipWs cs with
    | 'n' :: 'u' :: 'l' :: 'l' :: rest => some (Value.null, rest)
    | 't' :: 'r' :: 'u' :: 'e' :: rest => some (Value.bool true, rest)
    | 'f' :: 'a' :: 'l' :: 's' :: 'e' :: rest => some (Value.bool false, rest)
    | '"' :: rest => (jsonString rest).map (fun r => (Value.str r.1, r.2))
    | '[' :: rest =>
      match skipWs rest with
      | ']' :: r2 => some (Value.arr [], r2)
      | r2 => jsonArrayItems fuel r2 []
    | '{' :: rest =>
      match skipWs rest with
      | '}' :: r2 => some (Value.obj [], r2)
      | r2 => jsonObjectItems fuel r2 []
    | other => jsonNumber other

/-- Comma-separated items of a non-empty JSON array, up to the closing
bracket. -/
def jsonArrayItems : Nat → List Char → List Value → Option (Value × List Char)
  | 0, _, _ => none
  | fuel + 1, cs, acc =>
    match jsonValue fuel cs with
    | none => none
    | some (v, r) =>
      match skipWs r with
      | ',' :: rr => jsonArrayItems fuel rr (acc ++ [v])
      | ']' :: rr => some (Value.arr (acc ++ [v]), rr)
      | _ => none

/-- Comma-separated entries of a non-empty JSON object, up to the closing
brace; a repeated key keeps the last value, as in serde_json. -/
def jsonObjectItems : Nat → List Char → List (String × Value) →
    Option (Value × List Char)
  | 0, _, _ => none
  | fuel + 1, cs, acc =>
    match skipWs cs with
    | '"' :: rest =>
      match jsonString rest with
      | none => none
      | some (k, r) =>
        match skipWs r with
        | ':' :: rr =>
          match jsonValue fuel rr with
          | none => none
          | some (v, r2) =>
            match skipWs r2 with
            | ',' :: r3 => jsonObjectItems fuel r3 (insertKV acc k v)
            | '}' :: r3 => some (Value.obj (insertKV acc k v), r3)
            | _ => none
        | _ => none
    | _ => none

end

/-- Model of `serde_json::from_str::<Value>`: one complete JSON document,
with only trailing whitespace allowed after it. -/
def jsonFromStr (s : String) : Option Value :=
  match jsonValue (s.data.length + 1) s.data with
  | some (v, rest) => if skipWs rest = [] then some v else none
  | none => none

/-- Model of `serde_json::from_str::<Vec<Value>>`: succeeds exactly when the
document is a JSON array. -/
def jsonFromStrVec (s : String) : Option (List Value) :=
  match jsonFromStr s with
  | some (Value.arr xs) => some xs
  | _ => none

/-- Model of `Environment::parse_env_value` (src/environment.rs): reinterpret
a raw environment string as, in order, a boolean literal, an i64, an f64
(a non-finite f64 becomes Null, since `serde_json::Number::from_f64` refuses
non-finite values), a JSON array when bracket-delimited and parseable, a
JSON object when brace-delimited and parseable, else the string itself. -/
def parse_env_value (value : String) : Value :=
  match rustParseBool value with
  | some b => Value.bool b
  | none =>
  match rustParseI64 value with
  | some n => Value.intNum n
  | none =>
  match rustParseF64 value with
  | some (F64Result.finite q) => Value.floatNum q
  | some F64Result.nonfinite => Value.null
  | none =>
  if strStartsWith value "[" && strEndsWith value "]" then
    match jsonFromStrVec value with
    | some xs => Value.arr xs
    | none =>
      if strStartsWith value "\x7b" && strEndsWith value "\x7d" then
        match jsonFromStr value with
        | some v => v
        | none => Value.str value
      else Value.str value
  else
    if strStartsWith value "\x7b" && strEndsWith value "\x7d" then
      match jsonFromStr value with
      | some v => v
      | none => Value.str value
    else Value.str value

/-- Lookup in a string-to-string association list (models `HashMap<String,
String>` lookups and `env::var`; keys are unique). -/
def lookupStr (m : List (String × String)) (k : String) : Option String :=
  match m with
  | [] => none
  | (k2, v) :: rest => if k2 = k then some v else lookupStr rest k

/-- The Environment source (struct `Environment` in src/environment.rs).
`pfx` models `prefix: Option<Prefix>`; `Prefix` is an opaque string token
(spec section 3), stored verbatim.  The process environment is passed
explicitly to the operations as an association list snapshot of `env::vars`. -/
structure Environment where
  pfx : Option String
  separator : String
  case_sensitive : Bool
  overrides : List (String × String)
  field_mappings : List (String × String)
  nested : Bool

/-- Environment::default / Environment::new. -/
def Environment.new : Environment :=
  { pfx := none
    separator := "_"
    case_sensitive := false
    overrides := []
    field_mappings := []
    nested := false }

/-- One iteration of the scanning loops of `collect_with_flat_keys`: the loop
body is textually identical for the environment pass and the override pass,
differing only in where the raw key/value pair comes from. -/
def scanStep (e : Environment) (acc : List (String × Value)) (k v : String) :
    List (String × Value) :=
  match e.pfx with
  | some p =>
    let pstr := if e.case_sensitive then p else strToUpper p
    let kc := if e.case_sensitive then k else strToUpper k
    if strStartsWith kc pstr then
      let trimmed := trimStartMatches (strDrop kc (strLen pstr)) e.separator
      let keyForMap := if e.nested then trimmed else strToLower trimmed
      insertKV acc keyForMap (parse_env_value v)
    else acc
  | none => insertKV acc (strToLower k) (parse_env_value v)

/-- First pass of `collect_with_flat_keys`: scan the environment variables. -/
def envScan (e : Environment) (envv : List (String × String)) :
    List (String × Value) :=
  envv.foldl (fun acc kv => scanStep e acc kv.1 kv.2) []

/-- Second pass of `collect_with_flat_keys`: apply the static overrides on
top of the scanned map (overrides win). -/
def applyOverrides (e : Environment) (m : List (String × Value)) :
    List (String × Value) :=
  e.overrides.foldl (fun acc kv => scanStep e acc kv.1 kv.2) m

/-- Environment::insert_nested: walk the key path, descending into existing
Objects, replacing a non-Object intermediate with a fresh Object, and insert
the value at the last segment.  An empty path is a no-op. -/
def insert_nested (map : List (String × Value)) (parts : List String)
    (value : Value) : List (String × Value) :=
  match parts with
  | [] => map
  | [k] => insertKV map k value
  | k :: rest =>
    match lookupKV map k with
    | some (Value.obj nm) => insertKV map k (Value.obj (insert_nested nm rest value))
    | some _ => insertKV map k (Value.obj (insert_nested [] rest value))
    | none => insertKV map k (Value.obj (insert_nested [] rest value))

/-- Final pass of `collect_with_flat_keys` for one pair: flat mode stores the
lowercased key at top level; nested mode splits on the separator and inserts
the individually lowercased parts as a path. -/
def materializeEntry (e : Environment) (acc : List (String × Value)) (k : String)
    (v : Value) : List (String × Value) :=
  if e.nested then
    let parts := splitOnSep k e.separator
    if parts.length = 1 then insertKV acc (strToLower k) v
    else insert_nested acc (parts.map strToLower) v
  else insertKV acc (strToLower k) v

/-- Final pass of `collect_with_flat_keys` over the whole flat map. -/
def materialize (e : Environment) (m : List (String × Value)) :
    List (String × Value) :=
  m.foldl (fun acc kv => materializeEntry e acc kv.1 kv.2) []

/-- The map built by `collect_with_flat_keys`: environment scan, then
overrides, then flat or nested materialization. -/
def collectFlatMap (e : Environment) (envv : List (String × String)) :
    List (String × Value) :=
  materialize e (applyOverrides e (envScan e envv))

/-- Environment::collect_with_flat_keys: environment scan, then overrides,
then flat or nested materialization, wrapped as a Value Object. -/
def collect_with_flat_keys (e : Environment) (envv : List (String × String)) :
    Value :=
  Value.obj (collectFlatMap e envv)

/-- Environment::build_env_key: join the optional prefix and the path parts
with the separator, uppercased unless case-sensitive. -/
def build_env_key (e : Environment) (path : List String) : String :=
  let parts := (match e.pfx with | some p => [p] | none => []) ++ path
  let key := joinSep parts e.separator
  if e.case_sensitive then key else strToUpper key

/-- Environment::get_value: build the external key, consult the override map
first, then the live environment.  (Field mappings are not consulted.) -/
def get_value (e : Environment) (envv : List (String × String)) (key : String) :
    Option Value :=
  let ek := build_env_key e [key]
  match lookupStr e.overrides ek with
  | some ov => some (parse_env_value ov)
  | none => (lookupStr envv ek).map parse_env_value

/-- First phase of `collect` when field mappings are present: resolve each
mapped field by its exact external key, override before live read. -/
def mappedFields (e : Environment) (envv : List (String × String)) :
    List (String × Value) :=
  e.field_mappings.foldl
    (fun acc fm =>
      match lookupStr e.overrides fm.2 with
      | some ov => insertKV acc fm.1 (parse_env_value ov)
      | none =>
        match lookupStr envv fm.2 with
        | some v => insertKV acc fm.1 (parse_env_value v)
        | none => acc)
    []

/-- Second phase of `collect` when field mappings are present: add every
prefixed variable whose raw name is not a mapping target, under its derived
flat lowercase name, never overwriting an existing key. -/
def mappedScanStep (e : Environment) (acc : List (String × Value)) (k v : String) :
    List (String × Value) :=
  match e.pfx with
  | none => acc
  | some p =>
    let pstr := if e.case_sensitive then p else strToUpper p
    let kc := if e.case_sensitive then k else strToUpper k
    if strStartsWith kc pstr && !(e.field_mappings.any (fun fm => fm.2 == k)) then
      let trimmed := trimStartMatches (strDrop kc (strLen pstr)) e.separator
      let field_name := strToLower trimmed
      if containsKey acc field_name then acc
      else insertKV acc field_name (parse_env_value v)
    else acc

/-- The map built by the mapped branch of `collect`: resolve mapped fields
first, then scan the remaining prefixed variables. -/
def collectMap (e : Environment) (envv : List (String × String)) :
    List (String × Value) :=
  envv.foldl (fun acc kv => mappedScanStep e acc kv.1 kv.2) (mappedFields e envv)

/-- Branch of `ConfigSource::collect` taken when the field-mapping set is
non-empty. -/
def collectMapped (e : Environment) (envv : List (String × String)) : Value :=
  Value.obj (collectMap e envv)

/-- ConfigSource::collect for the Environment source: the mapped branch when
field mappings exist, otherwise `collect_with_flat_keys`. -/
def collect (e : Environment) (envv : List (String × String)) : Value :=
  if e.field_mappings = [] then collect_with_flat_keys e envv
  else collectMapped e envv

/-- Lookup of a key path in a map of nested Objects (the spec's
`get(path)`). -/
def getPath (m : List (String × Value)) : List String → Option Value
  | [] => none
  | [k] => lookupKV m k
  | k :: rest =>
    match lookupKV m k with
    | some (Value.obj nm) => getPath nm rest
    | _ => none

/-- Prefix composition performed at the top of the generated
`from_gonfig_with_builder_and_parent` (gonfig_derive/src/lib.rs): the parent
prefix when it is the only non-empty one, the own prefix when the parent is
empty, else parent, separator, own.  The generated code joins with the
literal separator of the derive macro. -/
def composePfx (parentPfx envPfx : String) : String :=
  if parentPfx = "" then envPfx
  else if envPfx = "" then parentPfx
  else parentPfx ++ "_" ++ envPfx

/-- External environment key computed by the generated code for a regular
field: the custom `env_name` when given, else the composed prefix joined with
the uppercased field name (just the uppercased field name when the composed
prefix is empty). -/
def deriveFieldEnvKey (composedPfx : String) (field_name : String)
    (custom : Option String) : String :=
  match custom with
  | some c => c
  | none =>
    if composedPfx = "" then strToUpper field_name
    else composedPfx ++ "_" ++ strToUpper field_name

/-- The Environment source built by the generated code: prefix set to the
composed prefix when non-empty, defaults otherwise, and one field mapping per
regular field using `deriveFieldEnvKey`. -/
def deriveEnvSource (composedPfx : String) (fields : List (String × Option String)) :
    Environment :=
  { Environment.new with
    pfx := if composedPfx = "" then none else some composedPfx
    field_mappings :=
      fields.map (fun f => (f.1, deriveFieldEnvKey composedPfx f.1 f.2)) }

/-- A configurable type as the derive macro sees it: its own env prefix, its
regular fields (name, optional custom env name) and its nested fields, each
delegating to another configurable type. -/
inductive ConfigTy where
  | mk (envPfx : String) (regular : List (String × Option String))
       (nestedF : List (String × ConfigTy))

/-- Own prefix of a configurable type. -/
def ConfigTy.envPfx : ConfigTy → String
  | ConfigTy.mk p _ _ => p

/-- Nested fields of a configurable type. -/
def ConfigTy.nestedF : ConfigTy → List (String × ConfigTy)
  | ConfigTy.mk _ _ n => n

/-- The value tree bound by the generated
`from_gonfig_with_builder_and_parent` in the nested branch.  `bv` abstracts
`builder.build_value()` — the generic merge of defaults, file, environment
and CLI sources for one invocation (the ConfigBuilder and merge code is not
part of src/; the claim below holds for every merge outcome): the macro
loads every nested field by recursing with the composed prefix as the new
parent prefix, removes the nested field names from the merged tree before
binding, and then overwrites each nested field with its loaded value. -/
def resolveMap (bv : ConfigTy → String → List (String × Value)) :
    ConfigTy → String → List (String × Value)
  | ConfigTy.mk ep reg nf, parentPfx =>
    let composed := composePfx parentPfx ep
    let merged := bv (ConfigTy.mk ep reg nf) composed
    let cleaned := removeKeys merged (nf.map Prod.fst)
    let children := nf.attach.map
      (fun x => (x.1.1, Value.obj (resolveMap bv x.1.2 composed)))
    children.foldl (fun acc c => insertKV acc c.1 c.2) cleaned
termination_by t _ => sizeOf t
decreasing_by
  have hmem : x.1 ∈ nf := x.2
  have h1 : sizeOf x.1 < sizeOf nf := List.sizeOf_lt_of_mem hmem
  have h2 : sizeOf x.1.2 < sizeOf x.1 := by
    obtain ⟨a, b⟩ := x.1
    simp only [Prod.mk.sizeOf_spec]
    omega
  simp only [ConfigTy.mk.sizeOf_spec]
  omega

/-- The fully resolved configuration tree of one type (the struct the
generated code returns, seen as a value tree). -/
def resolveTy (bv : ConfigTy → String → List (String × Value))
    (t : ConfigTy) (parentPfx : String) : Value :=
  Value.obj (resolveMap bv t parentPfx)

theorem char_toNat_ofNat (n : Nat) (h : n.isValidChar) : (Char.ofNat n).toNat = n := by
  simp [Char.ofNat, h, Char.ofNatAux, Char.toNat, UInt32.toNat, UInt32.ofNatCore]

theorem char_toLower_idem (c : Char) : c.toLower.toLower = c.toLower := by
  simp only [Char.toLower]
  by_cases h : c.toNat ≥ 65 ∧ c.toNat ≤ 90
  · rw [if_pos h]
    have hv : (c.toNat + 32).isValidChar := Or.inl (by omega)
    rw [char_toNat_ofNat _ hv, if_neg (by omega)]
  · rw [if_neg h, if_neg h]

theorem strToLower_idem (s : String) : strToLower (strToLower s) = strToLower s := by
  simp [strToLower, List.map_map, Function.comp_def, char_toLower_idem]

theorem containsKey_eq_mem (m : List (String × Value)) (k : String) :
    containsKey m k = true ↔ k ∈ m.map Prod.fst := by
  induction m with
  | nil => simp [containsKey]
  | cons kv rest ih =>
    obtain ⟨k2, w⟩ := kv
    simp only [containsKey, List.map_cons, List.mem_cons, Bool.or_eq_true,
      decide_eq_true_eq, ih]
    constructor
    · rintro (h | h)
      · exact Or.inl h.symm
      · exact Or.inr h
    · rintro (h | h)
      · exact Or.inl h.symm
      · exact Or.inr h

theorem containsKey_false_iff (m : List (String × Value)) (k : String) :
    containsKey m k = false ↔ lookupKV m k = none := by
  rw [← Bool.not_eq_true, containsKey_true_iff]
  cases lookupKV m k <;> simp

theorem insertKV_notMem (m : List (String × Value)) (k : String) (v : Value)
    (h : containsKey m k = false) : insertKV m k v = m ++ [(k, v)] := by
  induction m with
  | nil => rfl
  | cons kv rest ih =>
    obtain ⟨k2, w⟩ := kv
    simp only [containsKey, Bool.or_eq_false_iff] at h
    have hne : k2 ≠ k := by
      intro he
      simp [he] at h
    simp [insertKV, hne, ih h.2]

theorem map_fst_insertKV (m : List (String × Value)) (k : String) (v : Value) :
    (insertKV m k v).map Prod.fst =
      if containsKey m k then m.map Prod.fst else m.map Prod.fst ++ [k] := by
  induction m with
  | nil => simp [insertKV, containsKey]
  | cons kv rest ih =>
    obtain ⟨k2, w⟩ := kv
    by_cases h : k2 = k
    · simp [insertKV, containsKey, h]
    · simp only [insertKV, if_neg h, containsKey, List.map_cons, ih]
      by_cases h2 : containsKey rest k <;> simp [h, h2]

theorem keysNodup_insertKV (m : List (String × Value)) (k : String) (v : Value)
    (h : keysNodup m) : keysNodup (insertKV m k v) := by
  unfold keysNodup at h ⊢
  rw [map_fst_insertKV]
  by_cases hc : containsKey m k
  · simpa [hc] using h
  · have hk : k ∉ m.map Prod.fst := fun hm =>
      by simp [(containsKey_eq_mem m k).mpr hm] at hc
    rw [if_neg hc]
    rw [List.nodup_append]
    refine ⟨h, List.nodup_singleton k, ?_⟩
    intro a ha hb
    simp only [List.mem_singleton] at hb
    exact hk (hb ▸ ha)

theorem containsKey_append (a b : List (String × Value)) (k : String) :
    containsKey (a ++ b) k = (containsKey a k || containsKey b k) := by
  induction a with
  | nil => simp [containsKey]
  | cons kv rest ih =>
    obtain ⟨k2, w⟩ := kv
    simp [containsKey, ih, Bool.or_assoc]

theorem lookupKV_append_left (a b : List (String × Value)) (k : String)
    (h : containsKey a k = false) : lookupKV (a ++ b) k = lookupKV b k := by
  induction a with
  | nil => simp [lookupKV]
  | cons kv rest ih =>
    obtain ⟨k2, w⟩ := kv
    simp only [containsKey, Bool.or_eq_false_iff] at h
    have hne : k2 ≠ k := by
      intro he
      simp [he] at h
    simp [lookupKV, hne, ih h.2]

/-- Keys of the map are already lowercase (so the final lowercasing pass of
`collect_with_flat_keys` keeps them unchanged). -/
def allLowerKeys (m : List (String × Value)) : Prop :=
  ∀ kv ∈ m, strToLower kv.1 = kv.1

theorem allLowerKeys_insertKV (m : List (String × Value)) (k : String) (v : Value)
    (hm : allLowerKeys m) (hk : strToLower k = k) : allLowerKeys (insertKV m k v) := by
  induction m with
  | nil =>
    intro kv hkv
    simp [insertKV] at hkv
    simp [hkv, hk]
  | cons kv2 rest ih =>
    obtain ⟨k2, w⟩ := kv2
    have hm2 : allLowerKeys rest := fun kv hkv => hm kv (List.mem_cons_of_mem _ hkv)
    by_cases h : k2 = k
    · intro kv hkv
      simp only [insertKV, if_pos h] at hkv
      rcases List.mem_cons.mp hkv with h1 | h1
      · simp [h1, h, hk]
      · exact hm2 kv h1
    · intro kv hkv
      simp only [insertKV, if_neg h] at hkv
      rcases List.mem_cons.mp hkv with h1 | h1
      · exact h1 ▸ hm ⟨k2, w⟩ (List.mem_cons_self _ _)
      · exact ih hm2 kv h1

theorem scanStep_allLower (e : Environment) (acc : List (String × Value))
    (k v : String) (hn : e.nested = false) (h : allLowerKeys acc) :
    allLowerKeys (scanStep e acc k v) := by
  unfold scanStep
  cases hp : e.pfx with
  | none => exact allLowerKeys_insertKV _ _ _ h (strToLower_idem _)
  | some p =>
    by_cases hq : strStartsWith (if e.case_sensitive then k else strToUpper k)
        (if e.case_sensitive then p else strToUpper p) = true
    · simp only [hq, if_true, hn, if_false, Bool.false_eq_true]
      exact allLowerKeys_insertKV _ _ _ h (strToLower_idem _)
    · simp only [Bool.not_eq_true] at hq
      simp [hq, h]

theorem scanStep_nodup (e : Environment) (acc : List (String × Value))
    (k v : String) (h : keysNodup acc) : keysNodup (scanStep e acc k v) := by
  unfold scanStep
  cases hp : e.pfx with
  | none => exact keysNodup_insertKV _ _ _ h
  | some p =>
    by_cases hq : strStartsWith (if e.case_sensitive then k else strToUpper k)
        (if e.case_sensitive then p else strToUpper p) = true
    · simp only [hq, if_true]
      exact keysNodup_insertKV _ _ _ h
    · simp only [Bool.not_eq_true] at hq
      simp [hq, h]

theorem foldl_scanStep_allLower (e : Environment) (l : List (String × String))
    (acc : List (String × Value)) (hn : e.nested = false) (h : allLowerKeys acc) :
    allLowerKeys (l.foldl (fun a kv => scanStep e a kv.1 kv.2) acc) := by
  induction l generalizing acc with
  | nil => exact h
  | cons kv rest ih => exact ih _ (scanStep_allLower e acc kv.1 kv.2 hn h)

theorem foldl_scanStep_nodup (e : Environment) (l : List (String × String))
    (acc : List (String × Value)) (h : keysNodup acc) :
    keysNodup (l.foldl (fun a kv => scanStep e a kv.1 kv.2) acc) := by
  induction l generalizing acc with
  | nil => exact h
  | cons kv rest ih => exact ih _ (scanStep_nodup e acc kv.1 kv.2 h)

theorem foldl_materialize_append (e : Environment) (m acc : List (String × Value))
    (hn : e.nested = false) (hl : allLowerKeys m) (hd : keysNodup m)
    (hdisj : ∀ k ∈ m.map Prod.fst, containsKey acc k = false) :
    m.foldl (fun a kv => materializeEntry e a kv.1 kv.2) acc = acc ++ m := by
  induction m generalizing acc with
  | nil => simp
  | cons kv rest ih =>
    obtain ⟨k, v⟩ := kv
    have hkl : strToLower k = k := hl ⟨k, v⟩ (List.mem_cons_self _ _)
    have hck : containsKey acc k = false := hdisj k (by simp)
    have hstep : materializeEntry e acc k v = acc ++ [(k, v)] := by
      unfold materializeEntry
      rw [if_neg (by simp [hn]), hkl]
      exact insertKV_notMem acc k v hck
    simp only [List.foldl_cons, hstep]
    have hnd : keysNodup rest := by
      unfold keysNodup at hd ⊢
      simp only [List.map_cons, List.nodup_cons] at hd
      exact hd.2
    have hknot : k ∉ rest.map Prod.fst := by
      unfold keysNodup at hd
      simp only [List.map_cons, List.nodup_cons] at hd
      exact hd.1
    have := ih (acc ++ [(k, v)])
      (fun kv hkv => hl kv (List.mem_cons_of_mem _ hkv)) hnd
      (fun k2 hk2 => by
        rw [containsKey_append]
        have h1 : containsKey acc k2 = false := hdisj k2 (by simp [hk2])
        have h2 : containsKey [(k, v)] k2 = false := by
          have : k ≠ k2 := fun he => hknot (he ▸ hk2)
          simp [containsKey, this]
        simp [h1, h2])
    rw [this, List.append_assoc]
    rfl

theorem materialize_flat_id (e : Environment) (m : List (String × Value))
    (hn : e.nested = false) (hl : allLowerKeys m) (hd : keysNodup m) :
    materialize e m = m := by
  unfold materialize
  have := foldl_materialize_append e m [] hn hl hd (fun k _ => by simp [containsKey])
  simpa using this

theorem trimStartListAux_not_prefix (sep : List Char) (hs : sep ≠ []) :
    ∀ fuel s, s.length < fuel → ¬ sep <+: trimStartListAux fuel sep s := by
  intro fuel
  induction fuel with
  | zero => intro s h; omega
  | succ n ih =>
    intro s hlen
    simp only [trimStartListAux]
    split
    · next h =>
      apply ih
      have h1 : 0 < sep.length := List.length_pos.mpr hs
      have h2 : sep.length ≤ s.length := h.2.length_le
      simp only [List.length_drop]
      omega
    · next h =>
      intro hpre
      exact h ⟨hs, hpre⟩

theorem trimStartList_not_prefix (sep : List Char) (hs : sep ≠ []) (s : List Char) :
    ¬ sep <+: trimStartList sep s :=
  trimStartListAux_not_prefix sep hs (s.length + 1) s (by omega)

theorem strStartsWith_trimStartMatches (s sep : String) (hsep : sep ≠ "") :
    strStartsWith (trimStartMatches s sep) sep = false := by
  have hd : sep.data ≠ [] := by
    intro h
    apply hsep
    cases sep
    simp_all
  have := trimStartList_not_prefix sep.data hd s.data
  simp only [strStartsWith, trimStartMatches]
  rw [← Bool.not_eq_true, List.isPrefixOf_iff_prefix]
  exact this

/-- The prefix test applied by the scanning loops: does the (case-normalized)
variable name start with the (case-normalized) prefix string?  Note the code
compares against the prefix alone, not prefix plus separator. -/
def qualifies (e : Environment) (p k : String) : Bool :=
  strStartsWith (if e.case_sensitive then k else strToUpper k)
    (if e.case_sensitive then p else strToUpper p)

/-- The key under which a qualifying variable `k` is stored in the flat map of
`collect_with_flat_keys`: the prefix is cut off, every leading separator
occurrence is trimmed, and the result is lowercased in flat mode. -/
def flatStoredKey (e : Environment) (p k : String) : String :=
  let pstr := if e.case_sensitive then p else strToUpper p
  let kc := if e.case_sensitive then k else strToUpper k
  let trimmed := trimStartMatches (strDrop kc (strLen pstr)) e.separator
  if e.nested then trimmed else strToLower trimmed

/-- The derived flat field name used by the mapped branch of `collect` for a
qualifying unmapped variable (always lowercased, never split). -/
def mappedStoredKey (e : Environment) (p k : String) : String :=
  let pstr := if e.case_sensitive then p else strToUpper p
  let kc := if e.case_sensitive then k else strToUpper k
  strToLower (trimStartMatches (strDrop kc (strLen pstr)) e.separator)

theorem scanStep_eq (e : Environment) (p : String) (hp : e.pfx = some p)
    (acc : List (String × Value)) (k v : String) :
    scanStep e acc k v =
      if qualifies e p k then insertKV acc (flatStoredKey e p k) (parse_env_value v)
      else acc := by
  simp only [scanStep, hp, qualifies, flatStoredKey]

theorem mappedScanStep_eq (e : Environment) (p : String) (hp : e.pfx = some p)
    (acc : List (String × Value)) (k v : String) :
    mappedScanStep e acc k v =
      if qualifies e p k && !(e.field_mappings.any (fun fm => fm.2 == k)) then
        (if containsKey acc (mappedStoredKey e p k) then acc
         else insertKV acc (mappedStoredKey e p k) (parse_env_value v))
      else acc := by
  simp only [mappedScanStep, hp, qualifies, mappedStoredKey]

theorem lookupKV_insertKV_isSome (m : List (String × Value)) (k : String)
    (v : Value) (k2 : String) (h : (lookupKV m k2).isSome) :
    (lookupKV (insertKV m k v) k2).isSome := by
  by_cases he : k = k2
  · subst he
    simp [lookupKV_insertKV_self]
  · rw [lookupKV_insertKV_ne _ _ _ _ he]
    exact h

theorem lookupKV_insertKV_isSome_cases (m : List (String × Value)) (k : String)
    (v : Value) (k2 : String) (h : (lookupKV (insertKV m k v) k2).isSome) :
    k = k2 ∨ (lookupKV m k2).isSome := by
  by_cases he : k = k2
  · exact Or.inl he
  · rw [lookupKV_insertKV_ne _ _ _ _ he] at h
    exact Or.inr h

theorem foldl_scanStep_filter (e : Environment) (p : String) (hp : e.pfx = some p)
    (envv : List (String × String)) :
    ∀ acc, envv.foldl (fun a kv => scanStep e a kv.1 kv.2) acc
      = (envv.filter (fun kv => qualifies e p kv.1)).foldl
          (fun a kv => scanStep e a kv.1 kv.2) acc := by
  induction envv with
  | nil => intro acc; rfl
  | cons kv rest ih =>
    intro acc
    by_cases hq : qualifies e p kv.1
    · simp only [List.foldl_cons, List.filter_cons, hq, if_pos]
      exact ih _
    · have hstep : scanStep e acc kv.1 kv.2 = acc := by
        rw [scanStep_eq e p hp, if_neg (by simp [hq])]
      simp only [List.foldl_cons, List.filter_cons, hq, hstep]
      simp only [Bool.false_eq_true, if_neg (by simp : ¬ False)]
      exact ih acc

theorem scanStep_isSome (e : Environment) (acc : List (String × Value))
    (k v : String) (k2 : String) (h : (lookupKV acc k2).isSome) :
    (lookupKV (scanStep e acc k v) k2).isSome := by
  cases hp : e.pfx with
  | none =>
    simp only [scanStep, hp]
    exact lookupKV_insertKV_isSome _ _ _ _ h
  | some p =>
    rw [scanStep_eq e p hp]
    split
    · exact lookupKV_insertKV_isSome _ _ _ _ h
    · exact h

theorem foldl_scanStep_isSome (e : Environment) (l : List (String × String))
    (acc : List (String × Value)) (k2 : String) (h : (lookupKV acc k2).isSome) :
    (lookupKV (l.foldl (fun a kv => scanStep e a kv.1 kv.2) acc) k2).isSome := by
  induction l generalizing acc with
  | nil => exact h
  | cons kv rest ih =>
    simp only [List.foldl_cons]
    exact ih _ (scanStep_isSome e acc kv.1 kv.2 k2 h)

theorem foldl_scanStep_presence (e : Environment) (p : String) (hp : e.pfx = some p)
    (envv : List (String × String)) :
    ∀ acc k v, (k, v) ∈ envv → qualifies e p k = true →
      (lookupKV (envv.foldl (fun a kv => scanStep e a kv.1 kv.2) acc)
        (flatStoredKey e p k)).isSome := by
  induction envv with
  | nil => intro acc k v h; simp at h
  | cons kv rest ih =>
    intro acc k v hmem hq
    rcases List.mem_cons.mp hmem with he | hmem2
    · subst he
      simp only [List.foldl_cons]
      apply foldl_scanStep_isSome
      rw [scanStep_eq e p hp, if_pos hq]
      simp [lookupKV_insertKV_self]
    · simp only [List.foldl_cons]
      exact ih _ k v hmem2 hq

theorem foldl_scanStep_exact (e : Environment) (p : String) (hp : e.pfx = some p)
    (envv : List (String × String)) :
    ∀ acc k2, (lookupKV (envv.foldl (fun a kv => scanStep e a kv.1 kv.2) acc) k2).isSome →
      (lookupKV acc k2).isSome ∨
        ∃ kv ∈ envv, qualifies e p kv.1 = true ∧ flatStoredKey e p kv.1 = k2 := by
  induction envv with
  | nil => intro acc k2 h; exact Or.inl h
  | cons kv rest ih =>
    intro acc k2 h
    simp only [List.foldl_cons] at h
    rcases ih _ k2 h with h2 | h2
    · rw [scanStep_eq e p hp] at h2
      by_cases hq : qualifies e p kv.1
      · rw [if_pos hq] at h2
        rcases lookupKV_insertKV_isSome_cases _ _ _ _ h2 with h3 | h3
        · exact Or.inr ⟨kv, List.mem_cons_self _ _, hq, h3⟩
        · exact Or.inl h3
      · rw [if_neg hq] at h2
        exact Or.inl h2
    · obtain ⟨kv2, hm, hq, hk⟩ := h2
      exact Or.inr ⟨kv2, List.mem_cons_of_mem _ hm, hq, hk⟩

theorem mappedScanStep_preserve (e : Environment) (acc : List (String × Value))
    (k v k2 : String) (x : Value) (h : lookupKV acc k2 = some x) :
    lookupKV (mappedScanStep e acc k v) k2 = some x := by
  cases hp : e.pfx with
  | none =>
    simp only [mappedScanStep, hp]
    exact h
  | some p =>
    rw [mappedScanStep_eq e p hp]
    split
    · split
      · exact h
      · next hc =>
        have hne : mappedStoredKey e p k ≠ k2 := by
          intro he
          rw [he, containsKey_true_iff, h] at hc
          simp at hc
        rw [lookupKV_insertKV_ne _ _ _ _ hne]
        exact h
    · exact h

theorem foldl_mappedScanStep_preserve (e : Environment)
    (l : List (String × String)) :
    ∀ acc k2 x, lookupKV acc k2 = some x →
      lookupKV (l.foldl (fun a kv => mappedScanStep e a kv.1 kv.2) acc) k2 = some x := by
  induction l with
  | nil => intro acc k2 x h; exact h
  | cons kv rest ih =>
    intro acc k2 x h
    simp only [List.foldl_cons]
    exact ih _ k2 x (mappedScanStep_preserve e acc kv.1 kv.2 k2 x h)

theorem foldl_mappedScanStep_isSome (e : Environment) (l : List (String × String))
    (acc : List (String × Value)) (k2 : String) (h : (lookupKV acc k2).isSome) :
    (lookupKV (l.foldl (fun a kv => mappedScanStep e a kv.1 kv.2) acc) k2).isSome := by
  obtain ⟨x, hx⟩ := Option.isSome_iff_exists.mp h
  rw [foldl_mappedScanStep_preserve e l acc k2 x hx]
  rfl

theorem foldl_mappedScanStep_presence (e : Environment) (p : String)
    (hp : e.pfx = some p) (envv : List (String × String)) :
    ∀ acc k v, (k, v) ∈ envv → qualifies e p k = true →
      e.field_mappings.any (fun fm => fm.2 == k) = false →
      (lookupKV (envv.foldl (fun a kv => mappedScanStep e a kv.1 kv.2) acc)
        (mappedStoredKey e p k)).isSome := by
  induction envv with
  | nil => intro acc k v h; simp at h
  | cons kv rest ih =>
    intro acc k v hmem hq hcov
    rcases List.mem_cons.mp hmem with he | hmem2
    · subst he
      simp only [List.foldl_cons]
      apply foldl_mappedScanStep_isSome
      rw [mappedScanStep_eq e p hp, if_pos (by rw [hq, hcov]; rfl)]
      split
      · next hc =>
        rw [containsKey_true_iff] at hc
        exact hc
      · simp [lookupKV_insertKV_self]
    · simp only [List.foldl_cons]
      exact ih _ k v hmem2 hq hcov

/-- Resolution of one explicitly mapped field by its exact external key:
the override map is consulted before the live environment. -/
def resolvedMapped (e : Environment) (envv : List (String × String))
    (ek : String) : Option Value :=
  match lookupStr e.overrides ek with
  | some ov => some (parse_env_value ov)
  | none => (lookupStr envv ek).map parse_env_value

theorem mappedFold_notMem (e : Environment) (envv : List (String × String)) :
    ∀ (fm : List (String × String)) (acc : List (String × Value)) (fn : String),
      fn ∉ fm.map Prod.fst →
      lookupKV (fm.foldl (fun acc2 f =>
        match lookupStr e.overrides f.2 with
        | some ov => insertKV acc2 f.1 (parse_env_value ov)
        | none =>
          match lookupStr envv f.2 with
          | some v => insertKV acc2 f.1 (parse_env_value v)
          | none => acc2) acc) fn = lookupKV acc fn := by
  intro fm
  induction fm with
  | nil => intro acc fn _; rfl
  | cons f rest ih =>
    intro acc fn hn
    simp only [List.map_cons, List.mem_cons] at hn
    push_neg at hn
    have hne : f.1 ≠ fn := fun he => hn.1 he.symm
    simp only [List.foldl_cons]
    rw [ih _ fn hn.2]
    cases lookupStr e.overrides f.2 with
    | some ov => exact lookupKV_insertKV_ne _ _ _ _ hne
    | none =>
      cases lookupStr envv f.2 with
      | some v => exact lookupKV_insertKV_ne _ _ _ _ hne
      | none => rfl

theorem mappedFold_lookup (e : Environment) (envv : List (String × String)) :
    ∀ (fm : List (String × String)) (acc : List (String × Value)) (fn ek : String),
      (fn, ek) ∈ fm → (fm.map Prod.fst).Nodup →
      lookupKV (fm.foldl (fun acc2 f =>
        match lookupStr e.overrides f.2 with
        | some ov => insertKV acc2 f.1 (parse_env_value ov)
        | none =>
          match lookupStr envv f.2 with
          | some v => insertKV acc2 f.1 (parse_env_value v)
          | none => acc2) acc) fn =
      match resolvedMapped e envv ek with
      | some v => some v
      | none => lookupKV acc fn := by
  intro fm
  induction fm with
  | nil => intro acc fn ek h; simp at h
  | cons f rest ih =>
    intro acc fn ek hmem hnd
    simp only [List.map_cons, List.nodup_cons] at hnd
    rcases List.mem_cons.mp hmem with he | hmem2
    · have hf1 : f.1 = fn := by rw [← he]
      have hf2 : f.2 = ek := by rw [← he]
      have hnotin : fn ∉ rest.map Prod.fst := hf1 ▸ hnd.1
      simp only [List.foldl_cons]
      rw [mappedFold_notMem e envv rest _ fn hnotin]
      unfold resolvedMapped
      rw [hf1, hf2]
      cases lookupStr e.overrides ek with
      | some ov => simp [lookupKV_insertKV_self]
      | none =>
        cases lookupStr envv ek with
        | some v => simp [lookupKV_insertKV_self]
        | none => rfl
    · have hfn : fn ∈ rest.map Prod.fst :=
        List.mem_map.mpr ⟨(fn, ek), hmem2, rfl⟩
      have hne : f.1 ≠ fn := fun he => hnd.1 (he ▸ hfn)
      simp only [List.foldl_cons]
      rw [ih _ fn ek hmem2 hnd.2]
      have hacc : lookupKV (match lookupStr e.overrides f.2 with
          | some ov => insertKV acc f.1 (parse_env_value ov)
          | none =>
            match lookupStr envv f.2 with
            | some v => insertKV acc f.1 (parse_env_value v)
            | none => acc) fn = lookupKV acc fn := by
        cases lookupStr e.overrides f.2 with
        | some ov => exact lookupKV_insertKV_ne _ _ _ _ hne
        | none =>
          cases lookupStr envv f.2 with
          | some v => exact lookupKV_insertKV_ne _ _ _ _ hne
          | none => rfl
      rw [hacc]

theorem foldl_insertKV_notMem (children : List (String × Value)) :
    ∀ (acc : List (String × Value)) (n : String), n ∉ children.map Prod.fst →
      lookupKV (children.foldl (fun a c => insertKV a c.1 c.2) acc) n
        = lookupKV acc n := by
  induction children with
  | nil => intro acc n _; rfl
  | cons c rest ih =>
    intro acc n hn
    simp only [List.map_cons, List.mem_cons] at hn
    push_neg at hn
    simp only [List.foldl_cons]
    rw [ih _ n hn.2]
    exact lookupKV_insertKV_ne _ _ _ _ (fun he => hn.1 he.symm)

theorem foldl_insertKV_lookup_mem (children : List (String × Value)) :
    ∀ (acc : List (String × Value)) (n : String) (v : Value),
      (n, v) ∈ children → (children.map Prod.fst).Nodup →
      lookupKV (children.foldl (fun a c => insertKV a c.1 c.2) acc) n = some v := by
  induction children with
  | nil => intro acc n v h; simp at h
  | cons c rest ih =>
    intro acc n v hmem hnd
    simp only [List.map_cons, List.nodup_cons] at hnd
    rcases List.mem_cons.mp hmem with he | hmem2
    · have hc1 : c.1 = n := by rw [← he]
      have hnotin : n ∉ rest.map Prod.fst := hc1 ▸ hnd.1
      simp only [List.foldl_cons]
      rw [foldl_insertKV_notMem rest _ n hnotin]
      rw [← he]
      exact lookupKV_insertKV_self _ _ _
    · simp only [List.foldl_cons]
      exact ih _ n v hmem2 hnd.2

theorem getPath_insert_nested (parts : List String) (v : Value) :
    ∀ m, parts ≠ [] → getPath (insert_nested m parts v) parts = some v := by
  induction parts with
  | nil => intro m h; exact absurd rfl h
  | cons k rest ih =>
    intro m _
    cases rest with
    | nil => simp [insert_nested, getPath, lookupKV_insertKV_self]
    | cons r2 rs =>
      have hne : (r2 :: rs) ≠ [] := by simp
      cases hm : lookupKV m k with
      | none =>
        simp only [insert_nested, hm, getPath, lookupKV_insertKV_self]
        exact ih _ hne
      | some w =>
        cases w <;>
          simp only [insert_nested, hm, getPath, lookupKV_insertKV_self] <;>
          exact ih _ hne

/-- C1: the composed prefix used by a nested type's resolution equals the
parent prefix when the own prefix is empty, the own prefix when the parent
prefix is empty, and otherwise parent prefix, separator, own prefix; with
parent TRADESMITH and own SERVER the field host resolves from
TRADESMITH_SERVER_HOST, and setting only SERVER_HOST contributes nothing to
the environment source's collected tree. -/
theorem claim_C1_prefix_composition :
    (∀ p, composePfx p "" = p)
    ∧ (∀ o, composePfx "" o = o)
    ∧ (∀ p o, p ≠ "" → o ≠ "" → composePfx p o = p ++ "_" ++ o)
    ∧ deriveFieldEnvKey (composePfx "TRADESMITH" "SERVER") "host" none
        = "TRADESMITH_SERVER_HOST"
    ∧ collect (deriveEnvSource (composePfx "TRADESMITH" "SERVER") [("host", none)])
        [("TRADESMITH_SERVER_HOST", "0.0.0.0")]
      = Value.obj [("host", Value.str "0.0.0.0")]
    ∧ collect (deriveEnvSource (composePfx "TRADESMITH" "SERVER") [("host", none)])
        [("SERVER_HOST", "0.0.0.0")]
      = Value.obj [] := by
  refine ⟨?_, ?_, ?_, rfl, rfl, rfl⟩
  · intro p
    by_cases hp : p = "" <;> simp [composePfx, hp]
  · intro o
    simp [composePfx]
  · intro p o hp ho
    simp [composePfx, hp, ho]

/-- Witness for C1 at concrete non-empty prefixes. -/
theorem claim_C1_witness : composePfx "A" "B" = "A" ++ "_" ++ "B" :=
  claim_C1_prefix_composition.2.2.1 "A" "B" (by decide) (by decide)

/-- C6: parse_env_value tries the reinterpretations in a fixed order — bool,
i64, f64, bracket-delimited JSON array, brace-delimited JSON object, plain
string — and the first success wins; in particular 1.0.0 stays a String,
true becomes a Bool, and a bracketed list becomes an Array of integers. -/
theorem claim_C6_parse_order :
    parse_env_value "1.0.0" = Value.str "1.0.0"
    ∧ parse_env_value "true" = Value.bool true
    ∧ parse_env_value "[1,2,3]"
        = Value.arr [Value.intNum 1, Value.intNum 2, Value.intNum 3]
    ∧ (∀ s b, rustParseBool s = some b → parse_env_value s = Value.bool b)
    ∧ (∀ s n, rustParseBool s = none → rustParseI64 s = some n →
        parse_env_value s = Value.intNum n)
    ∧ (∀ s q, rustParseBool s = none → rustParseI64 s = none →
        rustParseF64 s = some (F64Result.finite q) →
        parse_env_value s = Value.floatNum q)
    ∧ (∀ s xs, rustParseBool s = none → rustParseI64 s = none →
        rustParseF64 s = none → strStartsWith s "[" = true →
        strEndsWith s "]" = true → jsonFromStrVec s = some xs →
        parse_env_value s = Value.arr xs)
    ∧ (∀ s v, rustParseBool s = none → rustParseI64 s = none →
        rustParseF64 s = none →
        (strStartsWith s "[" = false ∨ strEndsWith s "]" = false ∨
          jsonFromStrVec s = none) →
        strStartsWith s "\x7b" = true → strEndsWith s "\x7d" = true →
        jsonFromStr s = some v → parse_env_value s = v)
    ∧ (∀ s, rustParseBool s = none → rustParseI64 s = none →
        rustParseF64 s = none →
        (strStartsWith s "[" = false ∨ strEndsWith s "]" = false ∨
          jsonFromStrVec s = none) →
        (strStartsWith s "\x7b" = false ∨ strEndsWith s "\x7d" = false ∨
          jsonFromStr s = none) →
        parse_env_value s = Value.str s) := by
  refine ⟨rfl, rfl, rfl, ?_, ?_, ?_, ?_, ?_, ?_⟩
  · intro s b h
    simp [parse_env_value, h]
  · intro s n h1 h2
    simp [parse_env_value, h1, h2]
  · intro s q h1 h2 h3
    simp [parse_env_value, h1, h2, h3]
  · intro s xs h1 h2 h3 h4 h5 h6
    simp [parse_env_value, h1, h2, h3, h4, h5, h6]
  · intro s v h1 h2 h3 h4 h5 h6 h7
    rcases h4 with h4 | h4 | h4 <;>
      simp [parse_env_value, h1, h2, h3, h4, h5, h6, h7]
  · intro s h1 h2 h3 h4 h5
    rcases h4 with h4 | h4 | h4 <;> rcases h5 with h5 | h5 | h5 <;>
      simp [parse_env_value, h1, h2, h3, h4, h5]

/-- Witness for C6 applying the bool-first conjunct at a concrete string. -/
theorem claim_C6_witness : parse_env_value "false" = Value.bool false :=
  claim_C6_parse_order.2.2.2.1 "false" false rfl

/-- C9: insert_nested on a non-empty path always succeeds, in the sense that
the inserted value is found at that path afterwards; a non-Object value at an
intermediate segment is replaced by a fresh Object holding the rest of the
path, while an Object there is descended into. -/
theorem claim_C9_insert_nested_set (m : List (String × Value))
    (parts : List String) (v : Value) (hne : parts ≠ []) :
    getPath (insert_nested m parts v) parts = some v
    ∧ (∀ k rest w, parts = k :: rest → rest ≠ [] → lookupKV m k = some w →
        (∀ nm, w ≠ Value.obj nm) →
        insert_nested m parts v = insertKV m k (Value.obj (insert_nested [] rest v)))
    ∧ (∀ k rest nm, parts = k :: rest → rest ≠ [] →
        lookupKV m k = some (Value.obj nm) →
        insert_nested m parts v = insertKV m k (Value.obj (insert_nested nm rest v))) := by
  refine ⟨getPath_insert_nested parts v m hne, ?_, ?_⟩
  · intro k rest w hp hr hm hw
    subst hp
    cases rest with
    | nil => exact absurd rfl hr
    | cons r2 rs =>
      cases w with
      | obj nm => exact absurd rfl (hw nm)
      | null => simp [insert_nested, hm]
      | bool b => simp [insert_nested, hm]
      | intNum n => simp [insert_nested, hm]
      | floatNum q => simp [insert_nested, hm]
      | str s => simp [insert_nested, hm]
      | arr xs => simp [insert_nested, hm]
  · intro k rest nm hp hr hm
    subst hp
    cases rest with
    | nil => exact absurd rfl hr
    | cons r2 rs => simp [insert_nested, hm]

/-- Witness for C9: inserting along a path through a String intermediate. -/
theorem claim_C9_witness :
    getPath (insert_nested [("a", Value.str "x")] ["a", "b"] (Value.intNum 1))
      ["a", "b"] = some (Value.intNum 1) :=
  (claim_C9_insert_nested_set [("a", Value.str "x")] ["a", "b"] (Value.intNum 1)
    (by simp)).1

/-- C10: when the field-mapping set is non-empty, collect takes the mapped
branch, which never consults the nested flag, so the result is the same for
any value of that flag, and remaining prefixed variables land under a
single-level flat lowercase key even with nested mode on. -/
theorem claim_C10_mapped_flat (e : Environment) (envv : List (String × String))
    (b : Bool) (hfm : e.field_mappings ≠ []) :
    collect { e with nested := b } envv = collectMapped e envv
    ∧ collect { Environment.new with
          pfx := some "APP"
          nested := true
          field_mappings := [("x", "X")] } [("APP_A_B", "1")]
      = Value.obj [("a_b", Value.intNum 1)] := by
  constructor
  · have hcond : ({ e with nested := b } : Environment).field_mappings
        = e.field_mappings := rfl
    unfold collect
    rw [hcond, if_neg hfm]
    rfl
  · rfl

/-- Witness for C10 at a concrete source with a mapping. -/
theorem claim_C10_witness :
    collect { Environment.new with
        pfx := some "P"
        field_mappings := [("f", "F")]
        nested := true } []
      = collectMapped { Environment.new with
        pfx := some "P"
        field_mappings := [("f", "F")] } [] :=
  (claim_C10_mapped_flat { Environment.new with
    pfx := some "P"
    field_mappings := [("f", "F")] } [] true (by simp)).1

/-- C3 counterexample: with prefix APP, the variable APPLE does not start
with APP plus separator, yet collection includes it under key le — the code
filters on the prefix alone, so the claim's PREFIX + SEPARATOR filter is
refuted. -/
theorem claim_C3_counterexample :
    collect_with_flat_keys { Environment.new with pfx := some "APP" }
      [("APPLE", "1")] = Value.obj [("le", Value.intNum 1)]
    ∧ strStartsWith (strToUpper "APPLE") ("APP" ++ "_") = false :=
  ⟨rfl, rfl⟩

/-- C3 (amended): with a prefix configured and no overrides, exactly the
variables whose case-normalized name starts with the prefix alone are
included — filtering the environment down to those variables leaves the
collected tree unchanged; in flat mode each such variable is stored under the
key obtained by cutting the prefix, trimming all leading separator
occurrences and lowercasing, and every key of the collected tree arises that
way from some qualifying variable. -/
theorem claim_C3_prefix_filter (e : Environment) (p : String)
    (hp : e.pfx = some p) (hov : e.overrides = [])
    (envv : List (String × String)) :
    collect_with_flat_keys e envv
      = collect_with_flat_keys e (envv.filter (fun kv => qualifies e p kv.1))
    ∧ (e.nested = false → ∀ k v, (k, v) ∈ envv → qualifies e p k = true →
        (lookupKV (collectFlatMap e envv) (flatStoredKey e p k)).isSome)
    ∧ (e.nested = false → ∀ k2, (lookupKV (collectFlatMap e envv) k2).isSome →
        ∃ kv ∈ envv, qualifies e p kv.1 = true ∧ flatStoredKey e p kv.1 = k2) := by
  have hflat : ∀ (l : List (String × String)), collectFlatMap e l
      = materialize e (l.foldl (fun a kv => scanStep e a kv.1 kv.2) []) := by
    intro l
    unfold collectFlatMap applyOverrides envScan
    rw [hov]
    rfl
  refine ⟨?_, ?_, ?_⟩
  · unfold collect_with_flat_keys
    rw [hflat, hflat, foldl_scanStep_filter e p hp envv]
  · intro hn k v hmem hq
    rw [hflat envv, materialize_flat_id e _ hn
      (foldl_scanStep_allLower e envv [] hn (fun kv h => by simp at h))
      (foldl_scanStep_nodup e envv [] (by simp [keysNodup]))]
    exact foldl_scanStep_presence e p hp envv [] k v hmem hq
  · intro hn k2 h
    rw [hflat envv, materialize_flat_id e _ hn
      (foldl_scanStep_allLower e envv [] hn (fun kv h2 => by simp at h2))
      (foldl_scanStep_nodup e envv [] (by simp [keysNodup]))] at h
    rcases foldl_scanStep_exact e p hp envv [] k2 h with h2 | h2
    · simp [lookupKV] at h2
    · exact h2

/-- Witness for C3's amended filter equality at a concrete source. -/
theorem claim_C3_witness :
    collect_with_flat_keys { Environment.new with pfx := some "APP" }
        [("APP_A", "1"), ("OTHER", "2")]
      = collect_with_flat_keys { Environment.new with pfx := some "APP" }
        ([("APP_A", "1"), ("OTHER", "2")].filter
          (fun kv => qualifies { Environment.new with pfx := some "APP" } "APP" kv.1)) :=
  (claim_C3_prefix_filter { Environment.new with pfx := some "APP" } "APP"
    rfl rfl [("APP_A", "1"), ("OTHER", "2")]).1

/-- C4 counterexample: with prefix APP and separator underscore, the variable
APP__X is stored under key x, not under a key that keeps the surplus
separator — every leading separator repetition is trimmed. -/
theorem claim_C4_counterexample :
    collect_with_flat_keys { Environment.new with pfx := some "APP" }
      [("APP__X", "1")] = Value.obj [("x", Value.intNum 1)]
    ∧ lookupKV [("x", Value.intNum 1)] "_x" = none :=
  ⟨rfl, rfl⟩

/-- C4 (amended): stripping during collection removes every leading separator
occurrence after the prefix (Rust trim_start_matches removes the pattern
repeatedly), so the remaining key never begins with the separator. -/
theorem claim_C4_trim_all (s sep : String) (hsep : sep ≠ "") :
    strStartsWith (trimStartMatches s sep) sep = false
    ∧ trimStartMatches "__X" "_" = "X"
    ∧ flatStoredKey { Environment.new with pfx := some "APP" } "APP" "APP__X" = "x" :=
  ⟨strStartsWith_trimStartMatches s sep hsep, rfl, rfl⟩

/-- Witness for C4 at a concrete string with three separator repetitions. -/
theorem claim_C4_witness :
    strStartsWith (trimStartMatches "___a" "_") "_" = false :=
  (claim_C4_trim_all "___a" "_" (by decide)).1

/-- C5: static overrides beat live environment values.  The override pass of
collect_with_flat_keys runs after the environment scan, so a qualifying
override key determines the stored key's value no matter what the live
environment holds; and get_value consults the override map before reading
the live environment. -/
theorem claim_C5_overrides_win (e : Environment) (envv : List (String × String))
    (p ok ov : String) (hp : e.pfx = some p) (hn : e.nested = false)
    (hov : e.overrides = [(ok, ov)]) (hq : qualifies e p ok = true) :
    lookupKV (collectFlatMap e envv) (flatStoredKey e p ok)
      = some (parse_env_value ov)
    ∧ (∀ k envv2, get_value { e with overrides := [(build_env_key e [k], ov)] }
        envv2 k = some (parse_env_value ov)) := by
  constructor
  · have hsk : strToLower (flatStoredKey e p ok) = flatStoredKey e p ok := by
      simp only [flatStoredKey, hn, if_false, Bool.false_eq_true]
      exact strToLower_idem _
    have hover : applyOverrides e (envScan e envv)
        = insertKV (envScan e envv) (flatStoredKey e p ok) (parse_env_value ov) := by
      unfold applyOverrides
      rw [hov]
      simp only [List.foldl_cons, List.foldl_nil]
      rw [scanStep_eq e p hp, if_pos hq]
    have hml : allLowerKeys (envScan e envv) :=
      foldl_scanStep_allLower e envv [] hn (fun kv h => by simp at h)
    have hmd : keysNodup (envScan e envv) :=
      foldl_scanStep_nodup e envv [] (by simp [keysNodup])
    unfold collectFlatMap
    rw [hover, materialize_flat_id e _ hn
      (allLowerKeys_insertKV _ _ _ hml hsk)
      (keysNodup_insertKV _ _ _ hmd)]
    exact lookupKV_insertKV_self _ _ _
  · intro k envv2
    have hkey : build_env_key { e with overrides := [(build_env_key e [k], ov)] } [k]
        = build_env_key e [k] := rfl
    simp [get_value, lookupStr, hkey]

/-- Witness for C5 with a concrete override shadowing a live variable. -/
theorem claim_C5_witness :
    lookupKV (collectFlatMap { Environment.new with
        pfx := some "APP"
        overrides := [("APP_X", "7")] } [("APP_X", "1")])
      (flatStoredKey { Environment.new with
        pfx := some "APP"
        overrides := [("APP_X", "7")] } "APP" "APP_X")
      = some (parse_env_value "7") :=
  (claim_C5_overrides_win { Environment.new with
      pfx := some "APP"
      overrides := [("APP_X", "7")] } [("APP_X", "1")] "APP" "APP_X" "7"
    rfl rfl rfl rfl).1

/-- C8 counterexample: get_value does not consult the field mappings — with a
mapping from field to CUSTOM and CUSTOM set live, get_value(field) still
looks up APP_FIELD and finds nothing, refuting the claimed bypass. -/
theorem claim_C8_counterexample :
    get_value { Environment.new with
        pfx := some "APP"
        field_mappings := [("field", "CUSTOM")] } [("CUSTOM", "1")] "field" = none
    ∧ lookupStr [("CUSTOM", "1")] "CUSTOM" = some "1" :=
  ⟨rfl, rfl⟩

/-- C8 (amended): get_value always looks up join(prefix, field) with the
configured separator, uppercased unless case-sensitive; explicit field
mappings never affect get_value (they are honored by collect instead). -/
theorem claim_C8_get_value_key (e : Environment) (envv : List (String × String))
    (k : String) :
    (∀ p, e.pfx = some p → build_env_key e [k]
      = (if e.case_sensitive then p ++ e.separator ++ k
         else strToUpper (p ++ e.separator ++ k)))
    ∧ (e.pfx = none → build_env_key e [k]
      = (if e.case_sensitive then k else strToUpper k))
    ∧ (∀ fm, get_value { e with field_mappings := fm } envv k = get_value e envv k) := by
  refine ⟨?_, ?_, fun fm => rfl⟩
  · intro p hp
    simp [build_env_key, hp, joinSep]
  · intro hp
    simp [build_env_key, hp, joinSep]

/-- Witness for C8's amended key construction at a concrete source. -/
theorem claim_C8_witness :
    build_env_key { Environment.new with pfx := some "ab" } ["cd"] = "AB_CD" := by
  have h := (claim_C8_get_value_key { Environment.new with pfx := some "ab" }
    [] "cd").1 "ab" rfl
  rw [h]
  rfl

/-- C7: with a non-empty field-mapping set, collect takes the mapped branch:
mapped fields are resolved first, each by lookup of its exact external key
with the override map consulted before the live environment; then every
remaining prefixed variable whose raw name is not a mapping target is added
under its derived flat lowercase name, and a key already present is never
overwritten (first-mapped-wins). -/
theorem claim_C7_mapped_first (e : Environment) (envv : List (String × String))
    (hfm : e.field_mappings ≠ [])
    (hnd : (e.field_mappings.map Prod.fst).Nodup) :
    collect e envv = Value.obj (collectMap e envv)
    ∧ (∀ fn ek ov, (fn, ek) ∈ e.field_mappings →
        lookupStr e.overrides ek = some ov →
        lookupKV (mappedFields e envv) fn = some (parse_env_value ov))
    ∧ (∀ fn ek v, (fn, ek) ∈ e.field_mappings →
        lookupStr e.overrides ek = none → lookupStr envv ek = some v →
        lookupKV (mappedFields e envv) fn = some (parse_env_value v))
    ∧ (∀ k x, lookupKV (mappedFields e envv) k = some x →
        lookupKV (collectMap e envv) k = some x)
    ∧ (∀ k v p, (k, v) ∈ envv → e.pfx = some p → qualifies e p k = true →
        e.field_mappings.any (fun fm => fm.2 == k) = false →
        (lookupKV (collectMap e envv) (mappedStoredKey e p k)).isSome) := by
  refine ⟨?_, ?_, ?_, ?_, ?_⟩
  · unfold collect
    rw [if_neg hfm]
    rfl
  · intro fn ek ov hmem hov
    have h := mappedFold_lookup e envv e.field_mappings [] fn ek hmem hnd
    rw [show resolvedMapped e envv ek = some (parse_env_value ov) from
      by simp [resolvedMapped, hov]] at h
    exact h
  · intro fn ek v hmem hov henv
    have h := mappedFold_lookup e envv e.field_mappings [] fn ek hmem hnd
    rw [show resolvedMapped e envv ek = some (parse_env_value v) from
      by simp [resolvedMapped, hov, henv]] at h
    exact h
  · intro k x h
    exact foldl_mappedScanStep_preserve e envv _ k x h
  · intro k v p hmem hp hq hcov
    exact foldl_mappedScanStep_presence e p hp envv _ k v hmem hq hcov

/-- Witness for C7: a mapped field resolved from its exact external key. -/
theorem claim_C7_witness :
    lookupKV (mappedFields { Environment.new with
        pfx := some "APP"
        field_mappings := [("host", "H")] } [("H", "5")]) "host"
      = some (parse_env_value "5") :=
  (claim_C7_mapped_first { Environment.new with
      pfx := some "APP"
      field_mappings := [("host", "H")] } [("H", "5")]
    (by simp) (by simp)).2.2.1 "host" "H" "5" (by simp) rfl rfl

/-- C2: for every merge outcome bv of the generic builder, every nested field
of a configurable type ends up holding exactly the child type's resolution
with the composed prefix as its parent prefix — the macro removes the nested
keys from the merged tree before binding and then splices the loaded child
values in, so the child is authoritative for its subtree. -/
theorem claim_C2_nested_splice (bv : ConfigTy → String → List (String × Value))
    (ep : String) (reg : List (String × Option String))
    (nf : List (String × ConfigTy)) (parentPfx n : String) (c : ConfigTy)
    (hnd : (nf.map Prod.fst).Nodup) (hmem : (n, c) ∈ nf) :
    lookupKV (resolveMap bv (ConfigTy.mk ep reg nf) parentPfx) n
      = some (resolveTy bv c (composePfx parentPfx ep))
    ∧ (∀ m, lookupKV (removeKeys m (nf.map Prod.fst)) n = none) := by
  constructor
  · have hattach : (⟨(n, c), hmem⟩ : {x // x ∈ nf}) ∈ nf.attach :=
      List.mem_attach nf _
    have hchild : (n, Value.obj (resolveMap bv c (composePfx parentPfx ep)))
        ∈ nf.attach.map (fun x =>
          (x.1.1, Value.obj (resolveMap bv x.1.2 (composePfx parentPfx ep)))) :=
      List.mem_map.mpr ⟨⟨(n, c), hmem⟩, hattach, rfl⟩
    have hnames : (nf.attach.map (fun x =>
        (x.1.1, Value.obj (resolveMap bv x.1.2 (composePfx parentPfx ep))))).map
          Prod.fst = nf.map Prod.fst := by
      rw [List.map_map]
      have h2 : (Prod.fst ∘ fun (x : {x // x ∈ nf}) =>
          (x.1.1, Value.obj (resolveMap bv x.1.2 (composePfx parentPfx ep))))
          = Prod.fst ∘ (fun (x : {x // x ∈ nf}) => x.1) := rfl
      rw [h2, ← List.map_map]
      simp
    rw [resolveMap]
    exact foldl_insertKV_lookup_mem _ _ n _ hchild (by rw [hnames]; exact hnd)
  · intro m
    exact lookupKV_removeKeys_mem m _ n (List.mem_map.mpr ⟨(n, c), hmem, rfl⟩)

/-- Witness for C2 at a concrete one-level nesting. -/
theorem claim_C2_witness :
    lookupKV (resolveMap (fun _ _ => [])
        (ConfigTy.mk "APP" [] [("server", ConfigTy.mk "SERVER" [] [])]) "")
      "server"
      = some (resolveTy (fun _ _ => []) (ConfigTy.mk "SERVER" [] [])
          (composePfx "" "APP")) :=
  (claim_C2_nested_splice (fun _ _ => []) "APP" []
    [("server", ConfigTy.mk "SERVER" [] [])] "" "server"
    (ConfigTy.mk "SERVER" [] []) (by simp) (List.mem_singleton.mpr rfl)).1

end Gonfig
